import Mathlib

/-!
Verification of rinohtype's documented behaviour.

This file embeds, in Lean 4, the parts of the rinohtype document
processor that its specification talks about: the glyph span container
from the Cython layer, and the style-resolution and pagination engines.
The glyph span (`GlyphsSpan`) is translated directly from the Cython
source; the style and layout engines, whose Python sources are not part
of this snapshot, are modelled from the specification text, as noted on
each definition.
-/

set_option autoImplicit false

namespace Rinoh

/-! ## GlyphsSpan (from the Cython source `GlyphsSpan(list)`) -/

/-- Entry of a `GlyphsSpan`: a glyph paired with its width.  In the
Cython source the entries are `(glyph, width)` pairs produced by
`word_to_glyphs`; widths are modelled as integers. -/
structure GlyphAndWidth where
  glyph : Nat
  width : Int
  deriving Repr, DecidableEq

/-- State of a `GlyphsSpan` object: the underlying `list` contents
(`items`), plus the attributes set by `__cinit__`: `filled_tabs`
(a dictionary, modelled as an association list), `number_of_spaces`,
and `space_glyph_and_width`.  The `word_to_glyphs` callable is not
stored since no retained method reads it back. -/
structure GlyphsSpan where
  items : List GlyphAndWidth
  filled_tabs : List (Nat × String)
  number_of_spaces : Nat
  space_glyph_and_width : GlyphAndWidth
  deriving Repr, DecidableEq

/-- Constructor `GlyphsSpan.__cinit__(span, word_to_glyphs)`: the list
starts empty, `filled_tabs = {}`, `number_of_spaces = 0`, and
`space_glyph_and_width = list(word_to_glyphs(' ')[0])`.  The indexing
`[0]` fails when `word_to_glyphs(' ')` is empty, hence `Option`. -/
def GlyphsSpan.cinit (word_to_glyphs : String → List GlyphAndWidth) :
    Option GlyphsSpan :=
  match word_to_glyphs " " with
  | [] => none
  | g :: _ =>
    some { items := [], filled_tabs := [], number_of_spaces := 0,
           space_glyph_and_width := g }

/-- Method `GlyphsSpan.append_space(self)`: increments
`number_of_spaces` and appends `space_glyph_and_width` to the list. -/
def GlyphsSpan.append_space (gs : GlyphsSpan) : GlyphsSpan :=
  { gs with number_of_spaces := gs.number_of_spaces + 1,
            items := gs.items ++ [gs.space_glyph_and_width] }

/-- Inherited `list.append`: appends one element to the list, leaving
`number_of_spaces` unchanged. -/
def GlyphsSpan.append (gs : GlyphsSpan) (g : GlyphAndWidth) : GlyphsSpan :=
  { gs with items := gs.items ++ [g] }

/-- A call made against a `GlyphsSpan` after construction: either
`append_space()` or a plain `append(g)`. -/
inductive GlyphsOp where
  | space
  | pushGlyph (g : GlyphAndWidth)
  deriving Repr, DecidableEq

/-- Runs a sequence of calls against a `GlyphsSpan`. -/
def GlyphsSpan.applyOps (gs : GlyphsSpan) : List GlyphsOp → GlyphsSpan
  | [] => gs
  | .space :: ops => gs.append_space.applyOps ops
  | .pushGlyph g :: ops => (gs.append g).applyOps ops

/-- Number of `append_space` calls in a call sequence. -/
def countSpaceOps (ops : List GlyphsOp) : Nat :=
  ops.countP fun op =>
    match op with
    | .space => true
    | .pushGlyph _ => false

theorem GlyphsSpan.cinit_fields (wtg : String → List GlyphAndWidth)
    (gs : GlyphsSpan) (h : GlyphsSpan.cinit wtg = some gs) :
    gs.number_of_spaces = 0 ∧ gs.items = [] := by
  unfold GlyphsSpan.cinit at h
  cases hw : wtg " " with
  | nil => rw [hw] at h; exact absurd h (by simp)
  | cons g rest =>
    rw [hw] at h
    cases h
    exact ⟨rfl, rfl⟩

theorem GlyphsSpan.applyOps_counts (ops : List GlyphsOp) :
    ∀ gs : GlyphsSpan,
      (gs.applyOps ops).number_of_spaces
          = gs.number_of_spaces + countSpaceOps ops ∧
      (gs.applyOps ops).items.length = gs.items.length + ops.length := by
  induction ops with
  | nil => intro gs; simp [GlyphsSpan.applyOps, countSpaceOps]
  | cons op rest ih =>
    intro gs
    cases op with
    | space =>
      have h := ih gs.append_space
      simp [GlyphsSpan.applyOps, countSpaceOps, GlyphsSpan.append_space,
        List.countP_cons] at h ⊢
      omega
    | pushGlyph g =>
      have h := ih (gs.append g)
      simp [GlyphsSpan.applyOps, countSpaceOps, GlyphsSpan.append,
        List.countP_cons] at h ⊢
      omega

/-- C10: for every `GlyphsSpan` constructed with a span and
`word_to_glyphs` function, `number_of_spaces` starts at `0`, every
`append_space` call increments `number_of_spaces` by exactly one while
appending exactly one element (the precomputed space glyph-and-width
pair) to the underlying list, and after any sequence of `append_space`
and `append` calls `number_of_spaces` equals the number of
`append_space` calls made and never exceeds the list's length. -/
theorem glyphsSpan_number_of_spaces_invariant
    (wtg : String → List GlyphAndWidth) (gs0 : GlyphsSpan)
    (h : GlyphsSpan.cinit wtg = some gs0) (ops : List GlyphsOp) :
    gs0.number_of_spaces = 0 ∧
    (∀ gs : GlyphsSpan,
      gs.append_space.number_of_spaces = gs.number_of_spaces + 1 ∧
      gs.append_space.items = gs.items ++ [gs.space_glyph_and_width]) ∧
    (gs0.applyOps ops).number_of_spaces = countSpaceOps ops ∧
    (gs0.applyOps ops).number_of_spaces ≤ (gs0.applyOps ops).items.length := by
  obtain ⟨hn, hi⟩ := GlyphsSpan.cinit_fields wtg gs0 h
  obtain ⟨hc, hl⟩ := GlyphsSpan.applyOps_counts ops gs0
  refine ⟨hn, fun gs => ⟨rfl, rfl⟩, ?_, ?_⟩
  · rw [hc, hn]; omega
  · rw [hc, hl, hn, hi]
    have : countSpaceOps ops ≤ ops.length := List.countP_le_length _
    simpa using this

/-- Witness for C10 at a concrete `word_to_glyphs` and call sequence. -/
theorem glyphsSpan_number_of_spaces_invariant_witness :
    GlyphsSpan.cinit (fun _ => [⟨7, 3⟩]) =
        some { items := [], filled_tabs := [], number_of_spaces := 0,
               space_glyph_and_width := ⟨7, 3⟩ } ∧
    (({ items := [], filled_tabs := [], number_of_spaces := 0,
        space_glyph_and_width := ⟨7, 3⟩ } : GlyphsSpan).applyOps
          [.space, .pushGlyph ⟨1, 2⟩, .space]).number_of_spaces =
      countSpaceOps [.space, .pushGlyph ⟨1, 2⟩, .space] :=
  ⟨rfl,
   (glyphsSpan_number_of_spaces_invariant (fun _ => [⟨7, 3⟩]) _ rfl
      [.space, .pushGlyph ⟨1, 2⟩, .space]).2.2.1⟩

/-! ## Flowable pagination engine (spec section 4.3)

The Python sources of the flowable engine are not part of this source
snapshot (only documentation, change logs and regression-test input
files are), so the engine is modelled from the specification text. -/

/-- Modelled from the spec: an atomic unit of content of a flowable
sequence, occupying a vertical `extent` in a container (the Python
sources `rinoh/flowable.py` and `rinoh/layout.py` are not in the
snapshot).  `content` identifies the element. -/
structure FlowElem where
  content : Nat
  extent : Nat
  deriving Repr, DecidableEq

/-- Total extent of a list of elements. -/
def extentSum (elems : List FlowElem) : Nat :=
  (elems.map FlowElem.extent).sum

/-- Modelled from the spec: one `render` attempt into a container of
remaining extent `cap` places the maximal leading run of elements that
fits and returns the placed elements together with the remaining ones
(the continuation state). -/
def renderFill (cap : Nat) : List FlowElem → List FlowElem × List FlowElem
  | [] => ([], [])
  | e :: rest =>
    if e.extent ≤ cap then
      ((renderFill (cap - e.extent) rest).1.cons e,
       (renderFill (cap - e.extent) rest).2)
    else ([], e :: rest)

/-- Modelled from the spec: the outcome of one `render` call —
`done(extent_used)`, `continued(extent_used, continuation)` (a partial
render), or `overflow` when zero progress was possible. -/
inductive RenderResult where
  | done (extent_used : Nat)
  | continued (extent_used : Nat) (continuation : List FlowElem)
  | overflow
  deriving Repr, DecidableEq

/-- Modelled from the spec: `render(node, container, continuation?)`
classifying the fill outcome as done / continued / overflow. -/
def render (cap : Nat) (elems : List FlowElem) :
    List FlowElem × RenderResult :=
  match renderFill cap elems with
  | (p, []) => (p, .done (extentSum p))
  | ([], _ :: _) => ([], .overflow)
  | (p, r) => (p, .continued (extentSum p) r)

/-- Modelled from the spec: the engine loop threading each returned
continuation into the next container of the chain; returns the content
placed in each container and the content still unplaced when the chain
is exhausted. -/
def renderChain : List Nat → List FlowElem →
    List (List FlowElem) × List FlowElem
  | [], elems => ([], elems)
  | cap :: caps, elems =>
    ((renderChain caps (renderFill cap elems).2).1.cons
        (renderFill cap elems).1,
     (renderChain caps (renderFill cap elems).2).2)

theorem renderFill_append (cap : Nat) (elems : List FlowElem) :
    (renderFill cap elems).1 ++ (renderFill cap elems).2 = elems := by
  induction elems generalizing cap with
  | nil => simp [renderFill]
  | cons e rest ih =>
    by_cases h : e.extent ≤ cap
    · simp [renderFill, h, ih]
    · simp [renderFill, h]

theorem renderFill_all (cap : Nat) (elems : List FlowElem)
    (h : extentSum elems ≤ cap) : renderFill cap elems = (elems, []) := by
  induction elems generalizing cap with
  | nil => simp [renderFill]
  | cons e rest ih =>
    have he : e.extent ≤ cap := by
      simp [extentSum] at h; omega
    have hrest : extentSum rest ≤ cap - e.extent := by
      simp [extentSum] at h ⊢; omega
    simp [renderFill, he, ih _ hrest]

theorem renderChain_join (caps : List Nat) (elems : List FlowElem) :
    (renderChain caps elems).1.flatten ++ (renderChain caps elems).2
      = elems := by
  induction caps generalizing elems with
  | nil => simp [renderChain]
  | cons cap caps ih =>
    calc (renderChain (cap :: caps) elems).1.flatten
          ++ (renderChain (cap :: caps) elems).2
        = (renderFill cap elems).1 ++
            ((renderChain caps (renderFill cap elems).2).1.flatten
              ++ (renderChain caps (renderFill cap elems).2).2) := by
          simp [renderChain]
      _ = (renderFill cap elems).1 ++ (renderFill cap elems).2 := by
          rw [ih]
      _ = elems := renderFill_append cap elems

theorem renderChain_extent (caps : List Nat) (elems : List FlowElem)
    (h : (renderChain caps elems).2 = []) :
    ((renderChain caps elems).1.map extentSum).sum = extentSum elems := by
  have hj := renderChain_join caps elems
  rw [h, List.append_nil] at hj
  calc ((renderChain caps elems).1.map extentSum).sum
      = extentSum (renderChain caps elems).1.flatten := by
        induction (renderChain caps elems).1 with
        | nil => simp [extentSum]
        | cons p ps ih => simp [extentSum, List.flatten] at ih ⊢; omega
    _ = extentSum elems := by rw [hj]

/-- C1: when a flowable sequence is split over a chain of containers by
repeated render calls threading each continuation into the next attempt
and the chain completes, the content placed across the whole chain is
exactly the content of rendering in one unconstrained container (one
whose extent accommodates the whole sequence), element for element and
in order, and the extents consumed across the chain sum to the extent
consumed by the unconstrained rendering. -/
theorem renderChain_content_preservation
    (caps : List Nat) (elems : List FlowElem) (bigCap : Nat)
    (hdone : (renderChain caps elems).2 = [])
    (hbig : extentSum elems ≤ bigCap) :
    (renderChain caps elems).1.flatten = (renderFill bigCap elems).1 ∧
    render bigCap elems = (elems, .done (extentSum elems)) ∧
    ((renderChain caps elems).1.map extentSum).sum
      = extentSum (renderFill bigCap elems).1 := by
  have hall := renderFill_all bigCap elems hbig
  have hj := renderChain_join caps elems
  rw [hdone, List.append_nil] at hj
  refine ⟨by rw [hj, hall], ?_, ?_⟩
  · unfold render
    rw [hall]
    cases elems <;> simp
  · rw [hall]
    exact renderChain_extent caps elems hdone

/-- Witness for C1: the sequence [2, 3, 4] split over containers of
extents 5, 1 and 6 (the middle container takes nothing). -/
theorem renderChain_content_preservation_witness :
    (renderChain [5, 1, 6] [⟨0, 2⟩, ⟨1, 3⟩, ⟨2, 4⟩]).2 = [] ∧
    extentSum [⟨0, 2⟩, ⟨1, 3⟩, ⟨2, 4⟩] ≤ 9 ∧
    (renderChain [5, 1, 6] [⟨0, 2⟩, ⟨1, 3⟩, ⟨2, 4⟩]).1.flatten
      = (renderFill 9 [⟨0, 2⟩, ⟨1, 3⟩, ⟨2, 4⟩]).1 :=
  ⟨by decide, by decide,
   (renderChain_content_preservation [5, 1, 6] [⟨0, 2⟩, ⟨1, 3⟩, ⟨2, 4⟩] 9
      (by decide) (by decide)).1⟩

/-- Modelled from the spec: render into a container with the overflow
rule of section 7 — a flowable that cannot fit even in an empty
container is still placed there (overflowing/clipped) and a warning
flag is raised instead of aborting (the Python source fixing issue 45
is not in the snapshot).  Returns (placed, remaining, warned). -/
def renderForce (cap : Nat) (elems : List FlowElem) :
    List FlowElem × List FlowElem × Bool :=
  if (renderFill cap elems).1.isEmpty then
    match elems with
    | [] => ([], [], false)
    | e :: r => ([e], r, true)
  else ((renderFill cap elems).1, (renderFill cap elems).2, false)

/-- Modelled from the spec: the engine loop over a chain of containers
with the overflow rule; per container it records the placed content and
the warning flag. -/
def renderChainForce : List Nat → List FlowElem →
    List (List FlowElem × Bool) × List FlowElem
  | [], elems => ([], elems)
  | _ :: _, [] => ([], [])
  | cap :: caps, e :: r =>
    ((renderChainForce caps (renderForce cap (e :: r)).2.1).1.cons
        ((renderForce cap (e :: r)).1, (renderForce cap (e :: r)).2.2),
     (renderChainForce caps (renderForce cap (e :: r)).2.1).2)

theorem renderFill_head_no_fit (cap : Nat) (e : FlowElem)
    (r : List FlowElem) (h : ¬ e.extent ≤ cap) :
    renderFill cap (e :: r) = ([], e :: r) := by
  simp [renderFill, h]

theorem renderFill_head_fit (cap : Nat) (e : FlowElem)
    (r : List FlowElem) (h : e.extent ≤ cap) :
    renderFill cap (e :: r) =
      (e :: (renderFill (cap - e.extent) r).1,
       (renderFill (cap - e.extent) r).2) := by
  simp [renderFill, h]

theorem renderForce_append (cap : Nat) (elems : List FlowElem) :
    (renderForce cap elems).1 ++ (renderForce cap elems).2.1 = elems := by
  unfold renderForce
  cases elems with
  | nil => simp [renderFill]
  | cons e r =>
    by_cases h : e.extent ≤ cap
    · rw [renderFill_head_fit cap e r h]
      simpa using renderFill_append (cap - e.extent) r
    · rw [renderFill_head_no_fit cap e r h]
      simp

theorem renderForce_progress (cap : Nat) (e : FlowElem)
    (r : List FlowElem) :
    (renderForce cap (e :: r)).2.1.length < (e :: r).length := by
  unfold renderForce
  by_cases h : e.extent ≤ cap
  · rw [renderFill_head_fit cap e r h]
    have := congrArg List.length (renderFill_append (cap - e.extent) r)
    simp at this ⊢
    omega
  · rw [renderFill_head_no_fit cap e r h]
    simp

theorem renderChainForce_complete (caps : List Nat) :
    ∀ elems : List FlowElem, elems.length ≤ caps.length →
      (renderChainForce caps elems).2 = [] ∧
      ((renderChainForce caps elems).1.map Prod.fst).flatten = elems := by
  induction caps with
  | nil =>
    intro elems hlen
    cases elems with
    | nil => simp [renderChainForce]
    | cons e r => simp at hlen
  | cons cap caps ih =>
    intro elems hlen
    cases elems with
    | nil => simp [renderChainForce]
    | cons e r =>
      have hprog := renderForce_progress cap e r
      have hrec := ih (renderForce cap (e :: r)).2.1 (by
        simp at hlen hprog ⊢
        omega)
      have happ := renderForce_append cap (e :: r)
      refine ⟨?_, ?_⟩
      · simpa [renderChainForce] using hrec.1
      · simp only [renderChainForce, List.map, List.flatten]
        rw [hrec.2]
        exact happ

/-- C9: a flowable that cannot fit even in an empty container does not
abort the render: it is placed with overflow and the warning flag is
raised, and a render over a sufficiently long container chain completes
normally with every element placed. -/
theorem overflow_render_nonfatal (caps : List Nat)
    (elems : List FlowElem) (hlen : elems.length ≤ caps.length) :
    (∀ cap (e : FlowElem) (r : List FlowElem), cap < e.extent →
        renderForce cap (e :: r) = ([e], r, true)) ∧
    (renderChainForce caps elems).2 = [] ∧
    ((renderChainForce caps elems).1.map Prod.fst).flatten = elems := by
  refine ⟨?_, (renderChainForce_complete caps elems hlen).1,
    (renderChainForce_complete caps elems hlen).2⟩
  intro cap e r hcap
  unfold renderForce
  rw [renderFill_head_no_fit cap e r (by omega)]
  simp

/-- Witness for C9: a three-element sequence whose middle element (of
extent 100) fits no container, over containers of extent 10. -/
theorem overflow_render_nonfatal_witness :
    ([⟨0, 4⟩, ⟨1, 100⟩, ⟨2, 4⟩] : List FlowElem).length ≤
        ([10, 10, 10] : List Nat).length ∧
    (renderChainForce [10, 10, 10] [⟨0, 4⟩, ⟨1, 100⟩, ⟨2, 4⟩]).2 = [] :=
  ⟨by decide,
   (overflow_render_nonfatal [10, 10, 10] [⟨0, 4⟩, ⟨1, 100⟩, ⟨2, 4⟩]
      (by decide)).2.1⟩

/-- Modelled from the spec: a flowable with its vertical extent and its
`keep_with_next` style attribute (the Python source implementing
`keep_with_next` is not in the snapshot). -/
structure Flowable where
  content : Nat
  extent : Nat
  keep_with_next : Bool
  deriving Repr, DecidableEq

/-- Modelled from the spec: filling one container with flowables in
document order.  A flowable is placed when it fits in the remaining
extent, except that a flowable marked `keep_with_next` whose immediate
follower would not fit after it is retroactively withheld together with
that follower; the unplaced tail is carried to the next container. -/
def fillKeep (cap : Nat) : List Flowable → List Flowable × List Flowable
  | [] => ([], [])
  | [a] => if a.extent ≤ cap then ([a], []) else ([], [a])
  | a :: b :: rest =>
    if a.extent ≤ cap then
      if a.keep_with_next && ! (b.extent ≤ cap - a.extent) then
        ([], a :: b :: rest)
      else
        ((fillKeep (cap - a.extent) (b :: rest)).1.cons a,
         (fillKeep (cap - a.extent) (b :: rest)).2)
    else ([], a :: b :: rest)

/-- C6: if flowable A is marked `keep_with_next`, is immediately
followed by B, and A fits in the container but B does not fit after A,
then neither A nor B is placed in that container; in the next container
in which A and B fit (B itself unconstrained by a further keep), both
are rendered there, starting with A then B. -/
theorem keep_with_next_withholds (A B : Flowable)
    (rest : List Flowable) (cap cap2 : Nat)
    (hk : A.keep_with_next = true)
    (hfitA : A.extent ≤ cap) (hnoB : cap - A.extent < B.extent)
    (hfitA2 : A.extent ≤ cap2) (hfitB2 : B.extent ≤ cap2 - A.extent)
    (hB : B.keep_with_next = false ∨ rest = []) :
    fillKeep cap (A :: B :: rest) = ([], A :: B :: rest) ∧
    ∃ p r, fillKeep cap2 (A :: B :: rest) = (A :: B :: p, r) := by
  constructor
  · have hnot : ¬ (B.extent ≤ cap - A.extent) := by omega
    simp [fillKeep, hfitA, hk, hnot]
  · have hcond : (A.keep_with_next && ! (B.extent ≤ cap2 - A.extent)) = false := by
      simp [hk, hfitB2]
    rcases hB with hB | hB
    · cases rest with
      | nil =>
        refine ⟨[], [], ?_⟩
        simp [fillKeep, hfitA2, hcond, hfitB2]
      | cons c rs =>
        have hcond2 : (B.keep_with_next &&
            ! (c.extent ≤ cap2 - A.extent - B.extent)) = false := by
          simp [hB]
        refine ⟨(fillKeep (cap2 - A.extent - B.extent) (c :: rs)).1,
                (fillKeep (cap2 - A.extent - B.extent) (c :: rs)).2, ?_⟩
        simp [fillKeep, hfitA2, hcond, hfitB2, hcond2]
    · subst hB
      refine ⟨[], [], ?_⟩
      simp [fillKeep, hfitA2, hcond, hfitB2]

/-- Witness for C6: A (extent 3, keep_with_next) followed by B
(extent 4) in a container of extent 5, then one of extent 10. -/
theorem keep_with_next_withholds_witness :
    fillKeep 5 [⟨0, 3, true⟩, ⟨1, 4, false⟩]
        = ([], [⟨0, 3, true⟩, ⟨1, 4, false⟩]) ∧
    ∃ p r, fillKeep 10 [⟨0, 3, true⟩, ⟨1, 4, false⟩]
        = (⟨0, 3, true⟩ :: ⟨1, 4, false⟩ :: p, r) :=
  keep_with_next_withholds ⟨0, 3, true⟩ ⟨1, 4, false⟩ [] 5 10
    rfl (by decide) (by decide) (by decide) (by decide) (Or.inl rfl)

/-! ## Table column width assignment (spec section 4.3)

The Python source `rinoh/table.py` is not in the snapshot; the width
algorithm is modelled from the specification text. -/

/-- Modelled from the spec: a column width specification — an explicit
fixed width, an explicit relative (weighted) width, or an automatic
(content-driven) width carrying the column's natural content width. -/
inductive ColumnWidth where
  | fixed (w : ℚ)
  | relative (weight : ℚ)
  | auto (natural : ℚ)
  deriving Repr, DecidableEq

/-- Weight a column participates with in remainder distribution:
relative columns use their explicit weight, automatic columns default
to weight 1, fixed columns take no share. -/
def colWeight : ColumnWidth → ℚ
  | .fixed _ => 0
  | .relative w => w
  | .auto _ => 1

/-- Width a column receives before remainder distribution: fixed
columns their fixed width, automatic columns their natural content
width, relative columns nothing. -/
def colBase : ColumnWidth → ℚ
  | .fixed w => w
  | .relative _ => 0
  | .auto n => n

/-- Modelled from the spec: table column width assignment.  Fixed
widths are honored first; automatic columns first receive their
natural content width; the positive or negative remainder of the
available width is distributed across relative and automatic columns
proportionally to their weights. -/
def tableColumnWidths (cols : List ColumnWidth) (available : ℚ) :
    List ℚ :=
  if (cols.map colWeight).sum = 0 then cols.map colBase
  else
    cols.map fun c =>
      colBase c + colWeight c *
        ((available - (cols.map colBase).sum) / (cols.map colWeight).sum)


/-- C7: table column width assignment honors explicit fixed widths
exactly; relative and automatic columns share the remaining width in
proportion to their weights (automatic columns on top of their natural
width, with weight 1); and the columns fixed 50pt, relative 2,
relative 1 in an available width of 200pt receive widths 50, 100
and 50. -/
theorem table_column_widths_spec (cols : List ColumnWidth)
    (available : ℚ) (i j : Nat) (wi wj : ℚ)
    (hz : (cols.map colWeight).sum ≠ 0)
    (hi : cols[i]? = some (ColumnWidth.relative wi))
    (hj : cols[j]? = some (ColumnWidth.relative wj)) :
    (∀ (k : Nat) (w : ℚ), cols[k]? = some (ColumnWidth.fixed w) →
        (tableColumnWidths cols available)[k]? = some w) ∧
    (∃ r, (tableColumnWidths cols available)[i]? = some (wi * r) ∧
          (tableColumnWidths cols available)[j]? = some (wj * r) ∧
          (∀ (k : Nat) (n : ℚ), cols[k]? = some (ColumnWidth.auto n) →
            (tableColumnWidths cols available)[k]? = some (n + r))) ∧
    tableColumnWidths [.fixed 50, .relative 2, .relative 1] 200
      = [50, 100, 50] := by
  refine ⟨?_, ?_, ?_⟩
  · intro k w hk
    unfold tableColumnWidths
    simp [hz, List.getElem?_map, hk, colBase, colWeight]
  · refine ⟨(available - (cols.map colBase).sum) /
        (cols.map colWeight).sum, ?_, ?_, ?_⟩
    · unfold tableColumnWidths
      simp [hz, List.getElem?_map, hi, colBase, colWeight]
    · unfold tableColumnWidths
      simp [hz, List.getElem?_map, hj, colBase, colWeight]
    · intro k n hk
      unfold tableColumnWidths
      simp [hz, List.getElem?_map, hk, colBase, colWeight]
  · unfold tableColumnWidths
    norm_num [colBase, colWeight]

/-- Witness for C7 at the spec's example columns. -/
theorem table_column_widths_spec_witness :
    (([ColumnWidth.fixed 50, .relative 2, .relative 1].map colWeight).sum ≠ 0) ∧
    ∃ r, (tableColumnWidths [ColumnWidth.fixed 50, .relative 2, .relative 1]
            200)[1]? = some (2 * r) ∧
         (tableColumnWidths [ColumnWidth.fixed 50, .relative 2, .relative 1]
            200)[2]? = some (1 * r) ∧
         (∀ (k : Nat) (n : ℚ), ([ColumnWidth.fixed 50, .relative 2, .relative 1] :
              List ColumnWidth)[k]? = some (ColumnWidth.auto n) →
           (tableColumnWidths [ColumnWidth.fixed 50, .relative 2, .relative 1]
              200)[k]? = some (n + r)) :=
  ⟨by norm_num [colWeight],
   (table_column_widths_spec [ColumnWidth.fixed 50, .relative 2, .relative 1]
      200 1 2 2 1 (by norm_num [colWeight]) rfl rfl).2.1⟩

/-! ## Document renderer pass loop (spec section 4.4)

The Python source `rinoh/document.py` is not in the snapshot; the
multi-pass loop is modelled from the specification text. -/

/-- Modelled from the spec: a cross-reference table, mapping target
identifiers to resolved values. -/
abbrev RefTable := List (Nat × Nat)

/-- Modelled from the spec: the outcome of the pass loop — the number
of passes performed, the final reference table, and whether the
convergence-failure warning was emitted. -/
structure PassOutcome where
  passes : Nat
  table : RefTable
  warned : Bool
  deriving Repr, DecidableEq

/-- Modelled from the spec: runs layout passes.  Each pass consumes the
previous pass's reference table and produces a new one (`passFn`);
after a pass, if the new table equals the previous one the loop stops;
if instead the pass-count ceiling is reached it stops with the
convergence-failure warning. -/
def runPasses (passFn : RefTable → RefTable) :
    Nat → RefTable → Nat → PassOutcome
  | 0, prev, k => ⟨k, prev, true⟩
  | remaining + 1, prev, k =>
    if passFn prev = prev then ⟨k + 1, passFn prev, false⟩
    else if remaining = 0 then ⟨k + 1, passFn prev, true⟩
    else runPasses passFn remaining (passFn prev) (k + 1)

/-- Modelled from the spec: the document renderer drives passes
starting from the empty reference table, up to the `ceiling`. -/
def renderDocument (passFn : RefTable → RefTable) (ceiling : Nat) :
    PassOutcome :=
  runPasses passFn ceiling [] 0

theorem runPasses_spec (passFn : RefTable → RefTable) :
    ∀ (remaining : Nat) (prev : RefTable) (k : Nat),
      1 ≤ remaining →
      (runPasses passFn remaining prev k).passes ≤ k + remaining ∧
      k + 1 ≤ (runPasses passFn remaining prev k).passes ∧
      (runPasses passFn remaining prev k).table =
        passFn^[(runPasses passFn remaining prev k).passes - k] prev ∧
      ((runPasses passFn remaining prev k).warned = false →
        passFn ((runPasses passFn remaining prev k).table) =
          (runPasses passFn remaining prev k).table) ∧
      ((runPasses passFn remaining prev k).warned = true →
        (runPasses passFn remaining prev k).passes = k + remaining) := by
  intro remaining
  induction remaining with
  | zero => intro prev k h; omega
  | succ r ih =>
    intro prev k _
    by_cases hfix : passFn prev = prev
    · refine ⟨?_, ?_, ?_, ?_, ?_⟩ <;>
        simp [runPasses, hfix, Function.iterate_one] <;> omega
    · by_cases hr : r = 0
      · subst hr
        refine ⟨?_, ?_, ?_, ?_, ?_⟩ <;>
          simp [runPasses, hfix, Function.iterate_one]
      · have hr1 : 1 ≤ r := by omega
        have h := ih (passFn prev) (k + 1) hr1
        have hrun : runPasses passFn (r + 1) prev k
            = runPasses passFn r (passFn prev) (k + 1) := by
          simp [runPasses, hfix, hr]
        rw [hrun]
        obtain ⟨h1, h2, h3, h4, h5⟩ := h
        refine ⟨by omega, by omega, ?_, h4,
          fun hw => by have := h5 hw; omega⟩
        rw [h3]
        have hk : (runPasses passFn r (passFn prev) (k + 1)).passes - k
            = ((runPasses passFn r (passFn prev) (k + 1)).passes - (k + 1)) + 1 := by
          omega
        rw [hk, Function.iterate_succ_apply]

/-- C8: the document renderer's pass loop always terminates: pass k
consumes the table produced by pass k-1 (the empty table for k = 1), it
stops at the first pass whose reference table equals the previous
pass's table or upon reaching the pass-count ceiling (with the
convergence-failure warning in the ceiling case), and it emits that
final pass's result: at most `ceiling` and at least one pass is
performed, the final table is the `passes`-fold application of the
pass function to the empty table, a run without the warning ended on a
fixed point of the pass function, and a warned run used exactly
`ceiling` passes. -/
theorem render_pass_loop_terminates (passFn : RefTable → RefTable)
    (ceiling : Nat) (hc : 1 ≤ ceiling) :
    (renderDocument passFn ceiling).passes ≤ ceiling ∧
    1 ≤ (renderDocument passFn ceiling).passes ∧
    (renderDocument passFn ceiling).table
      = passFn^[(renderDocument passFn ceiling).passes] [] ∧
    ((renderDocument passFn ceiling).warned = false →
      passFn ((renderDocument passFn ceiling).table)
        = (renderDocument passFn ceiling).table) ∧
    ((renderDocument passFn ceiling).warned = true →
      (renderDocument passFn ceiling).passes = ceiling) := by
  obtain ⟨h1, h2, h3, h4, h5⟩ := runPasses_spec passFn ceiling [] 0 hc
  unfold renderDocument
  refine ⟨by omega, by omega, ?_, h4, fun hw => by have := h5 hw; omega⟩
  simpa using h3

/-- Witness for C8: a pass function that converges after two passes,
with a ceiling of five. -/
theorem render_pass_loop_terminates_witness :
    (1 ≤ 5) ∧
    (renderDocument (fun t => if t = [] then [(0, 1)] else t) 5).passes ≤ 5 :=
  ⟨by decide,
   (render_pass_loop_terminates (fun t => if t = [] then [(0, 1)] else t) 5
      (by decide)).1⟩

/-! ## Matcher and specificity (spec sections 3 and 4.1)

The Python source `rinoh/style.py` is not in the snapshot; selectors,
matching and specificity are modelled from the specification text and
the element-styling documentation. -/

/-- Modelled from the spec: the specificity 5-tuple
`(priority, location, style_matches, attribute_matches, class_weight)`
ranking matched selectors. -/
structure Specificity where
  priority : Int
  location : Int
  style_matches : Nat
  attribute_matches : Nat
  class_weight : Nat
  deriving Repr, DecidableEq

/-- Componentwise addition of specificities, used to combine the
contribution of each selector step. -/
def Specificity.add (a b : Specificity) : Specificity :=
  ⟨a.priority + b.priority, a.location + b.location,
   a.style_matches + b.style_matches,
   a.attribute_matches + b.attribute_matches,
   a.class_weight + b.class_weight⟩

/-- Modelled from the spec: a document node as seen by the matcher —
its type tag, optional style label, and attribute map. -/
structure NodeInfo where
  typ : Nat
  styleName : Option String
  attrs : List (String × Int)
  deriving Repr, DecidableEq

/-- Modelled from the spec: one class step of a selector — a target
type (matched exactly or by proper subtype), an optional style-label
predicate, and attribute predicates. -/
structure ClassSel where
  cls : Nat
  styleSel : Option String
  attrSel : List (String × Int)
  deriving Repr, DecidableEq

/-- Modelled from the spec: a selector context step: a class step
matching one node, or the arbitrary-depth wildcard. -/
inductive SelStep where
  | cls (c : ClassSel)
  | anyDepth
  deriving Repr, DecidableEq

/-- Modelled from the spec: a selector — an integer priority offset and
context steps listed innermost (matched node) first. -/
structure Selector where
  priority : Int
  steps : List SelStep
  deriving Repr, DecidableEq

/-- Record of one class step's match, kept so that the specificity
formula can be restated over the matched elements. -/
structure StepMatch where
  nodeTyp : Nat
  stepCls : Nat
  hasStyleSel : Bool
  attrCount : Nat
  deriving Repr, DecidableEq

/-- Class weight contributed by one class step: 2 on an exact type
match, 1 on a proper subtype match, no match otherwise.  `isSub t c`
states that type `t` is a proper subtype of `c`. -/
def classWeight (isSub : Nat → Nat → Bool) (c : ClassSel)
    (n : NodeInfo) : Option Nat :=
  if n.typ = c.cls then some 2
  else if isSub n.typ c.cls then some 1
  else none

/-- Style predicate of a class step against a node. -/
def styleOk (c : ClassSel) (n : NodeInfo) : Bool :=
  match c.styleSel with
  | none => true
  | some s => n.styleName = some s

/-- Attribute predicates of a class step against a node. -/
def attrsOk (c : ClassSel) (n : NodeInfo) : Bool :=
  c.attrSel.all fun kv => n.attrs.lookup kv.1 = some kv.2

/-- Specificity contributed by one class step whose class weight
is `w`: one style match when a style predicate is present, one
attribute match per attribute predicate, and the class weight. -/
def stepSpec (w : Nat) (c : ClassSel) : Specificity :=
  ⟨0, 0, if c.styleSel.isSome then 1 else 0, c.attrSel.length, w⟩

/-- Modelled from the spec: matching the steps of a selector against a
node's ancestor chain (node first, closest ancestor next).  A class
step consumes one node; the arbitrary-depth wildcard lets the rest of
the steps match at any higher starting point (existence-match).
Returns the accumulated specificity and the per-step match records. -/
def matchSteps (isSub : Nat → Nat → Bool) :
    List SelStep → List NodeInfo → Option (Specificity × List StepMatch)
  | [], _ => some (⟨0, 0, 0, 0, 0⟩, [])
  | .cls _ :: _, [] => none
  | .cls c :: rest, n :: up =>
    match classWeight isSub c n with
    | none => none
    | some w =>
      if styleOk c n && attrsOk c n then
        (matchSteps isSub rest up).map fun st =>
          ((stepSpec w c).add st.1,
            ⟨n.typ, c.cls, c.styleSel.isSome, c.attrSel.length⟩ :: st.2)
      else none
  | .anyDepth :: rest, chain =>
    chain.tails.findSome? fun ch => matchSteps isSub rest ch

/-- Modelled from the spec: matching a whole selector adds its priority
offset to the accumulated specificity of its steps. -/
def matchSelector (isSub : Nat → Nat → Bool) (sel : Selector)
    (chain : List NodeInfo) : Option (Specificity × List StepMatch) :=
  (matchSteps isSub sel.steps chain).map fun st =>
    (Specificity.add ⟨sel.priority, 0, 0, 0, 0⟩ st.1, st.2)

/-- The claimed class weight: 2 per exactly-matched step, 1 per
proper-subtype-matched step, summed over the selector's steps. -/
def claimedClassWeight (tr : List StepMatch) : Nat :=
  (tr.map fun r => if r.nodeTyp = r.stepCls then 2 else 1).sum

/-- The claimed specificity of a match: the 5-tuple
`(priority, location = 0, style_matches, attribute_matches,
class_weight)` computed from the selector and its matched steps. -/
def claimedSpecificity (sel : Selector) (tr : List StepMatch) :
    Specificity :=
  ⟨sel.priority, 0,
   tr.countP (fun r => r.hasStyleSel),
   (tr.map fun r => r.attrCount).sum,
   claimedClassWeight tr⟩

theorem findSome?_some {α β : Type} (f : α → Option β) :
    ∀ (l : List α) (b : β), l.findSome? f = some b → ∃ a ∈ l, f a = some b := by
  intro l
  induction l with
  | nil => intro b h; simp [List.findSome?] at h
  | cons a as ih =>
    intro b h
    rw [List.findSome?_cons] at h
    cases hfa : f a with
    | some c =>
      simp only [hfa] at h
      exact ⟨a, by simp, by rw [hfa, h]⟩
    | none =>
      simp only [hfa] at h
      obtain ⟨x, hx, hfx⟩ := ih b h
      exact ⟨x, by simp [hx], hfx⟩

theorem matchSteps_claimed (isSub : Nat → Nat → Bool) :
    ∀ (steps : List SelStep) (chain : List NodeInfo)
      (s : Specificity) (tr : List StepMatch),
      matchSteps isSub steps chain = some (s, tr) →
      s = ⟨0, 0, tr.countP (fun r => r.hasStyleSel),
           (tr.map fun r => r.attrCount).sum, claimedClassWeight tr⟩ := by
  intro steps
  induction steps with
  | nil =>
    intro chain s tr h
    simp only [matchSteps, Option.some.injEq, Prod.mk.injEq] at h
    obtain ⟨h1, h2⟩ := h
    subst h2
    rw [← h1]
    simp [claimedClassWeight]
  | cons step rest ih =>
    intro chain s tr h
    cases step with
    | anyDepth =>
      simp only [matchSteps] at h
      obtain ⟨ch, _, hch⟩ := findSome?_some _ _ _ h
      exact ih ch s tr hch
    | cls c =>
      cases chain with
      | nil => simp [matchSteps] at h
      | cons n up =>
        simp only [matchSteps] at h
        cases hw : classWeight isSub c n with
        | none => simp only [hw] at h; exact Option.noConfusion h
        | some w =>
          simp only [hw] at h
          by_cases hok : (styleOk c n && attrsOk c n) = true
          · rw [if_pos hok] at h
            cases hrec : matchSteps isSub rest up with
            | none => rw [hrec] at h; simp at h
            | some st =>
              rw [hrec] at h
              simp only [Option.map_some', Option.some.injEq] at h
              injection h with hs htr
              have hst := ih up st.1 st.2 (by rw [hrec])
              have hwval : w = if n.typ = c.cls then 2 else 1 := by
                unfold classWeight at hw
                by_cases he : n.typ = c.cls
                · rw [if_pos he] at hw
                  simp only [Option.some.injEq] at hw
                  simp [he, hw.symm]
                · rw [if_neg he] at hw
                  by_cases hsub : isSub n.typ c.cls = true
                  · rw [if_pos hsub] at hw
                    simp only [if_pos hsub, Option.some.injEq] at hw
                    simp [he, hw.symm]
                  · simp [hsub] at hw
              subst htr
              rw [← hs, hst]
              simp only [Specificity.add, stepSpec, claimedClassWeight,
                List.countP_cons, List.map_cons, List.sum_cons,
                Specificity.mk.injEq, hwval]
              refine ⟨by omega, by omega, ?_, ?_⟩
              · by_cases hsty : c.styleSel.isSome <;> simp [hsty] <;> omega
              · by_cases he : n.typ = c.cls <;> simp [he]
          · rw [if_neg hok] at h
            simp at h

/-- C2: for every selector matched against a node and its ancestor
chain, the specificity computed for the match is the 5-tuple
`(priority, location = 0, style_matches, attribute_matches,
class_weight)`, where the class weight is summed over the selector's
steps, each step adding 2 when the matched element's type equals the
step's type exactly and 1 when it is a proper subtype of it. -/
theorem specificity_is_claimed_tuple (isSub : Nat → Nat → Bool)
    (sel : Selector) (chain : List NodeInfo) (s : Specificity)
    (tr : List StepMatch)
    (h : matchSelector isSub sel chain = some (s, tr)) :
    s = claimedSpecificity sel tr ∧
    s.priority = sel.priority ∧ s.location = 0 ∧
    s.class_weight =
      (tr.map fun r => if r.nodeTyp = r.stepCls then 2 else 1).sum := by
  unfold matchSelector at h
  cases hms : matchSteps isSub sel.steps chain with
  | none => rw [hms] at h; exact Option.noConfusion h
  | some st =>
    rw [hms] at h
    simp only [Option.map_some', Option.some.injEq] at h
    injection h with hs htr
    subst htr
    have hst := matchSteps_claimed isSub sel.steps chain st.1 st.2 (by rw [hms])
    have h1 : Specificity.add ⟨sel.priority, 0, 0, 0, 0⟩ st.1
        = claimedSpecificity sel st.2 := by
      rw [hst]
      simp [Specificity.add, claimedSpecificity]
    rw [← hs, h1]
    exact ⟨rfl, rfl, rfl, rfl⟩

/-- Witness for C2: a selector of shape `A / ... / B` (priority 0, two
class steps separated by the wildcard) matched against a three-node
chain whose innermost node matches by proper subtype and whose
outermost matches exactly. -/
theorem specificity_is_claimed_tuple_witness :
    matchSelector (fun t c => t = 10 && c = 1)
        ⟨0, [.cls ⟨1, none, []⟩, .anyDepth, .cls ⟨2, none, []⟩]⟩
        [⟨10, none, []⟩, ⟨3, none, []⟩, ⟨2, none, []⟩]
      = some (⟨0, 0, 0, 0, 3⟩,
          [⟨10, 1, false, 0⟩, ⟨2, 2, false, 0⟩]) ∧
    (⟨0, 0, 0, 0, 3⟩ : Specificity)
      = claimedSpecificity
          ⟨0, [.cls ⟨1, none, []⟩, .anyDepth, .cls ⟨2, none, []⟩]⟩
          [⟨10, 1, false, 0⟩, ⟨2, 2, false, 0⟩] :=
  ⟨by decide,
   (specificity_is_claimed_tuple (fun t c => t = 10 && c = 1)
      ⟨0, [.cls ⟨1, none, []⟩, .anyDepth, .cls ⟨2, none, []⟩]⟩
      [⟨10, none, []⟩, ⟨3, none, []⟩, ⟨2, none, []⟩]
      ⟨0, 0, 0, 0, 3⟩ [⟨10, 1, false, 0⟩, ⟨2, 2, false, 0⟩]
      (by decide)).1⟩

/-- Modelled from the spec: lexicographic strictly-greater comparison
of specificity tuples, component by component. -/
def Specificity.lexGtB (a b : Specificity) : Bool :=
  if a.priority = b.priority then
    if a.location = b.location then
      if a.style_matches = b.style_matches then
        if a.attribute_matches = b.attribute_matches then
          decide (b.class_weight < a.class_weight)
        else decide (b.attribute_matches < a.attribute_matches)
      else decide (b.style_matches < a.style_matches)
    else decide (b.location < a.location)
  else decide (b.priority < a.priority)

theorem lexGtB_irrefl (a : Specificity) : a.lexGtB a = false := by
  simp [Specificity.lexGtB]

theorem lexGtB_trans (a b c : Specificity) (h1 : a.lexGtB b = true)
    (h2 : b.lexGtB c = true) : a.lexGtB c = true := by
  obtain ⟨p1, l1, s1, t1, c1⟩ := a
  obtain ⟨p2, l2, s2, t2, c2⟩ := b
  obtain ⟨p3, l3, s3, t3, c3⟩ := c
  unfold Specificity.lexGtB at h1 h2 ⊢
  simp only at h1 h2 ⊢
  split_ifs at h1 h2 ⊢ <;> first | rfl | (try simp_all) <;> omega

theorem lexGtB_conn (a b : Specificity) (h1 : a.lexGtB b = false)
    (h2 : b.lexGtB a = false) : a = b := by
  obtain ⟨p1, l1, s1, t1, c1⟩ := a
  obtain ⟨p2, l2, s2, t2, c2⟩ := b
  unfold Specificity.lexGtB at h1 h2
  simp only [Specificity.mk.injEq]
  split_ifs at h1 h2 <;> (try simp_all) <;> omega

/-- Spelled-out meaning of the lexicographic comparison, as the spec
states it: compare priorities first, then locations, then style
matches, then attribute matches, then class weights. -/
theorem lexGtB_iff (a b : Specificity) :
    a.lexGtB b = true ↔
      (b.priority < a.priority ∨
        (a.priority = b.priority ∧ (b.location < a.location ∨
          (a.location = b.location ∧ (b.style_matches < a.style_matches ∨
            (a.style_matches = b.style_matches ∧
              (b.attribute_matches < a.attribute_matches ∨
                (a.attribute_matches = b.attribute_matches ∧
                  b.class_weight < a.class_weight)))))))) := by
  obtain ⟨p1, l1, s1, t1, c1⟩ := a
  obtain ⟨p2, l2, s2, t2, c2⟩ := b
  unfold Specificity.lexGtB
  simp only
  split_ifs <;> (try simp_all) <;> omega

/-- Modelled from the spec: a matching selector as a candidate for
winner selection — its specificity and its registration index
(declaration order; a larger index means registered later). -/
abbrev MatchEntry := Specificity × Nat

/-- Modelled from the spec: candidate `a` wins over candidate `b` when
its specificity tuple is lexicographically greater, or the tuples are
equal and `a` was registered later. -/
def winsOver (a b : MatchEntry) : Bool :=
  a.1.lexGtB b.1 || (decide (a.1 = b.1) && decide (b.2 < a.2))

/-- Modelled from the spec: among matching selectors, the winning
candidate under `winsOver`; the list is in registration order. -/
def pickWinner : List MatchEntry → Option MatchEntry
  | [] => none
  | m :: ms =>
    match pickWinner ms with
    | none => some m
    | some w => if winsOver w m then some w else some m


theorem winsOver_conn (a b : MatchEntry) (hij : a.2 ≠ b.2)
    (h : winsOver a b = false) : winsOver b a = true := by
  unfold winsOver at h ⊢
  simp only [Bool.or_eq_false_iff, Bool.and_eq_false_iff] at h
  obtain ⟨hlex, heq⟩ := h
  by_cases hba : b.1.lexGtB a.1 = true
  · simp [hba]
  · have hab : a.1 = b.1 :=
      lexGtB_conn a.1 b.1 hlex (by revert hba; cases b.1.lexGtB a.1 <;> simp)
    have hnlt : ¬ b.2 < a.2 := by
      rcases heq with heq | hlt
      · simp [hab] at heq
      · simpa using hlt
    simp only [Bool.or_eq_true, Bool.and_eq_true, decide_eq_true_eq]
    right
    exact ⟨hab.symm, by omega⟩

theorem winsOver_asymm (a b : MatchEntry) (h : winsOver a b = true) :
    winsOver b a = false := by
  unfold winsOver at h ⊢
  simp only [Bool.or_eq_true, Bool.and_eq_true, decide_eq_true_eq] at h
  simp only [Bool.or_eq_false_iff, Bool.and_eq_false_iff]
  rcases h with hlex | ⟨heq, hlt⟩
  · constructor
    · by_cases hba : b.1.lexGtB a.1 = true
      · have := lexGtB_trans a.1 b.1 a.1 hlex hba
        rw [lexGtB_irrefl] at this
        exact absurd this (by simp)
      · revert hba; cases b.1.lexGtB a.1 <;> simp
    · left
      simp only [decide_eq_false_iff_not]
      intro hba
      rw [hba] at hlex
      rw [lexGtB_irrefl] at hlex
      exact absurd hlex (by simp)
  · constructor
    · rw [heq, lexGtB_irrefl]
    · right
      simp only [decide_eq_false_iff_not]
      omega

theorem winsOver_trans (a b c : MatchEntry) (h1 : winsOver a b = true)
    (h2 : winsOver b c = true) : winsOver a c = true := by
  unfold winsOver at h1 h2 ⊢
  simp only [Bool.or_eq_true, Bool.and_eq_true, decide_eq_true_eq] at h1 h2 ⊢
  rcases h1 with hlex1 | ⟨heq1, hlt1⟩ <;> rcases h2 with hlex2 | ⟨heq2, hlt2⟩
  · exact Or.inl (lexGtB_trans _ _ _ hlex1 hlex2)
  · left; rw [← heq2]; exact hlex1
  · left; rw [heq1]; exact hlex2
  · right; exact ⟨heq1.trans heq2, by omega⟩

theorem pickWinner_eq_none (ms : List MatchEntry) :
    pickWinner ms = none ↔ ms = [] := by
  cases ms with
  | nil => simp [pickWinner]
  | cons m rest =>
    simp only [pickWinner]
    cases pickWinner rest
    · simp
    · simp only []
      split <;> simp

theorem pickWinner_beats (ms : List MatchEntry)
    (hdist : ms.Pairwise (fun x y => x.2 ≠ y.2)) :
    ∀ w, pickWinner ms = some w → w ∈ ms ∧
      ∀ m ∈ ms, m ≠ w → winsOver w m = true := by
  induction ms with
  | nil => intro w h; simp [pickWinner] at h
  | cons m rest ih =>
    intro w h
    rw [List.pairwise_cons] at hdist
    obtain ⟨hhead, htail⟩ := hdist
    simp only [pickWinner] at h
    cases hrest : pickWinner rest with
    | none =>
      simp only [hrest, Option.some.injEq] at h
      have hnil : rest = [] := (pickWinner_eq_none rest).mp hrest
      subst hnil
      subst h
      exact ⟨by simp, by simp⟩
    | some w' =>
      simp only [hrest] at h
      obtain ⟨hw'mem, hw'beats⟩ := ih htail w' hrest
      by_cases hwin : winsOver w' m = true
      · rw [if_pos hwin] at h
        simp only [Option.some.injEq] at h
        cases h
        refine ⟨by simp [hw'mem], ?_⟩
        intro x hx hne
        rcases List.mem_cons.mp hx with hxm | hxr
        · subst hxm; exact hwin
        · exact hw'beats x hxr hne
      · rw [if_neg hwin] at h
        simp only [Option.some.injEq] at h
        cases h
        have hmw' : winsOver m w' = true :=
          winsOver_conn w' m (fun he => hhead w' hw'mem he.symm)
            (by revert hwin; cases winsOver w' m <;> simp)
        refine ⟨by simp, ?_⟩
        intro x hx hne
        rcases List.mem_cons.mp hx with hxm | hxr
        · subst hxm; exact absurd rfl hne
        · by_cases hxw' : x = w'
          · subst hxw'; exact hmw'
          · exact winsOver_trans m w' x hmw' (hw'beats x hxr hxw')

/-- C3: for candidates A and B that both match a node, A wins over B
iff A's specificity tuple is lexicographically greater than B's, or the
tuples are equal and A was registered later; and among any nonempty
set of matching candidates with pairwise distinct registration indices
the winner exists, beats every other candidate, and is unique. -/
theorem specificity_winner_iff_and_unique
    (ms : List MatchEntry) (hne : ms ≠ [])
    (hdist : ms.Pairwise (fun x y => x.2 ≠ y.2)) :
    (∀ a b : MatchEntry, winsOver a b = true ↔
      ((b.1.priority < a.1.priority ∨
        (a.1.priority = b.1.priority ∧ (b.1.location < a.1.location ∨
          (a.1.location = b.1.location ∧
            (b.1.style_matches < a.1.style_matches ∨
              (a.1.style_matches = b.1.style_matches ∧
                (b.1.attribute_matches < a.1.attribute_matches ∨
                  (a.1.attribute_matches = b.1.attribute_matches ∧
                    b.1.class_weight < a.1.class_weight)))))))) ∨
        (a.1 = b.1 ∧ b.2 < a.2))) ∧
    (∃ w, pickWinner ms = some w ∧ w ∈ ms ∧
      (∀ m ∈ ms, m ≠ w → winsOver w m = true) ∧
      ∀ w' ∈ ms, (∀ m ∈ ms, m ≠ w' → winsOver w' m = true) → w' = w) := by
  constructor
  · intro a b
    unfold winsOver
    simp only [Bool.or_eq_true, Bool.and_eq_true, decide_eq_true_eq]
    rw [lexGtB_iff]
  · cases hpick : pickWinner ms with
    | none => exact absurd ((pickWinner_eq_none ms).mp hpick) hne
    | some w =>
      obtain ⟨hmem, hbeats⟩ := pickWinner_beats ms hdist w hpick
      refine ⟨w, rfl, hmem, hbeats, ?_⟩
      intro w' hw'mem hw'beats
      by_cases he : w' = w
      · exact he
      · have h1 : winsOver w' w = true := hw'beats w hmem (fun hx => he hx.symm)
        have h2 : winsOver w w' = true := hbeats w' hw'mem he
        have := winsOver_asymm w w' h2
        rw [this] at h1
        exact absurd h1 (by simp)

/-- Witness for C3: three candidates, two with equal specificity where
the later-registered one wins. -/
theorem specificity_winner_iff_and_unique_witness :
    (([(⟨0, 0, 0, 0, 1⟩, 0), (⟨0, 0, 1, 0, 1⟩, 1), (⟨0, 0, 1, 0, 1⟩, 2)] :
        List MatchEntry) ≠ []) ∧
    (∃ w, pickWinner
        [(⟨0, 0, 0, 0, 1⟩, 0), (⟨0, 0, 1, 0, 1⟩, 1), (⟨0, 0, 1, 0, 1⟩, 2)]
          = some w ∧
      w ∈ ([(⟨0, 0, 0, 0, 1⟩, 0), (⟨0, 0, 1, 0, 1⟩, 1),
            (⟨0, 0, 1, 0, 1⟩, 2)] : List MatchEntry) ∧
      (∀ m ∈ ([(⟨0, 0, 0, 0, 1⟩, 0), (⟨0, 0, 1, 0, 1⟩, 1),
               (⟨0, 0, 1, 0, 1⟩, 2)] : List MatchEntry),
          m ≠ w → winsOver w m = true) ∧
      ∀ w' ∈ ([(⟨0, 0, 0, 0, 1⟩, 0), (⟨0, 0, 1, 0, 1⟩, 1),
               (⟨0, 0, 1, 0, 1⟩, 2)] : List MatchEntry),
        (∀ m ∈ ([(⟨0, 0, 0, 0, 1⟩, 0), (⟨0, 0, 1, 0, 1⟩, 1),
                 (⟨0, 0, 1, 0, 1⟩, 2)] : List MatchEntry),
            m ≠ w' → winsOver w' m = true) → w' = w) :=
  ⟨by decide,
   (specificity_winner_iff_and_unique
      [(⟨0, 0, 0, 0, 1⟩, 0), (⟨0, 0, 1, 0, 1⟩, 1), (⟨0, 0, 1, 0, 1⟩, 2)]
      (by decide) (by decide)).2⟩

/-! ## Cascade resolver (spec section 4.2)

The Python source `rinoh/style.py` is not in the snapshot; attribute
resolution is modelled from the specification text and the
element-styling documentation. -/

/-- Modelled from the spec: the `base` reference of a property set —
nothing, another label, or one of the sentinels `DEFAULT_STYLE`,
`PARENT_STYLE`, `NEXT_STYLE`. -/
inductive BaseRef where
  | noBase
  | label (l : String)
  | defaultStyle
  | parentStyle
  | nextStyle
  deriving Repr, DecidableEq

/-- Modelled from the spec: a property set — property assignments and a
base reference. -/
structure PropertySet where
  props : List (String × Int)
  base : BaseRef
  deriving Repr, DecidableEq

/-- Modelled from the spec: a style sheet maps labels to property
sets. -/
abbrev StyleSheet := List (String × PropertySet)

/-- Result of looking a property up through a base chain: the value
found, or absence together with whether the chain ended at the
`PARENT_STYLE` sentinel. -/
inductive ChainResult where
  | found (v : Int)
  | absent (viaParentStyle : Bool)
  deriving Repr, DecidableEq

/-- Modelled from the spec: look a property up in a label's property
set and its base chain; a `DEFAULT_STYLE` or `NEXT_STYLE` sentinel or a
missing base ends the chain, `PARENT_STYLE` ends it with the parent
fallback marker.  `fuel` bounds the chain length. -/
def lookupChain (ss : StyleSheet) : Nat → String → String → ChainResult
  | 0, _, _ => .absent false
  | fuel + 1, label, prop =>
    match ss.lookup label with
    | none => .absent false
    | some ps =>
      match ps.props.lookup prop with
      | some v => .found v
      | none =>
        match ps.base with
        | .label l => lookupChain ss fuel l prop
        | .parentStyle => .absent true
        | _ => .absent false

/-- Modelled from the spec: try the matched labels in descending
specificity order and return the first base-chain hit; when none
defines the property, report absence with the first (most specific)
label's parent-fallback marker, that label's property set being the
node's style. -/
def lookupMatches (ss : StyleSheet) (fuel : Nat) :
    List String → String → ChainResult
  | [], _ => .absent false
  | l :: rest, prop =>
    match lookupChain ss fuel l prop with
    | .found v => .found v
    | .absent flag =>
      match lookupMatches ss fuel rest prop with
      | .found v => .found v
      | .absent _ => .absent flag

/-- Modelled from the spec: a document node as seen by the resolver —
its type tag and whether it is a text/inline element (as opposed to a
block/flowable element). -/
structure StyledNode where
  typ : Nat
  isInline : Bool
  deriving Repr, DecidableEq

/-- Modelled from the spec: `resolve(node, property)` over the node's
ancestor chain (node first).  The matched labels of a node are given by
`matcher`; a text/inline node with no definition climbs to its parent;
a block/flowable node falls back to its parent only when its style's
base is `PARENT_STYLE` and its type equals or is a proper subtype of
the parent's; otherwise the type-level default is returned. -/
def resolve (ss : StyleSheet) (matcher : StyledNode → List String)
    (defaults : String → Int) (isSub : Nat → Nat → Bool) (fuel : Nat) :
    List StyledNode → String → Int
  | [], prop => defaults prop
  | node :: ancestors, prop =>
    match lookupMatches ss fuel (matcher node) prop with
    | .found v => v
    | .absent viaParent =>
      if node.isInline then
        resolve ss matcher defaults isSub fuel ancestors prop
      else
        match ancestors with
        | parent :: _ =>
          if viaParent &&
              (node.typ = parent.typ || isSub node.typ parent.typ) then
            resolve ss matcher defaults isSub fuel ancestors prop
          else defaults prop
        | [] => defaults prop

/-- C4: when no matched label's property set (or base chain) defines
the property: a text/inline node recurses to its parent (climbing the
ancestor chain); a block/flowable node falls back to the parent only if
the absence came through the `PARENT_STYLE` sentinel and the node's
type is identical to or a proper subtype of the parent's, and otherwise
resolves to the default. -/
theorem resolve_parent_fallback (ss : StyleSheet)
    (matcher : StyledNode → List String) (defaults : String → Int)
    (isSub : Nat → Nat → Bool) (fuel : Nat)
    (node parent : StyledNode) (rest : List StyledNode)
    (prop : String) (flag : Bool)
    (h : lookupMatches ss fuel (matcher node) prop = .absent flag) :
    (node.isInline = true →
      resolve ss matcher defaults isSub fuel (node :: parent :: rest) prop
        = resolve ss matcher defaults isSub fuel (parent :: rest) prop) ∧
    (node.isInline = false → flag = true →
      (node.typ = parent.typ ∨ isSub node.typ parent.typ = true) →
      resolve ss matcher defaults isSub fuel (node :: parent :: rest) prop
        = resolve ss matcher defaults isSub fuel (parent :: rest) prop) ∧
    (node.isInline = false →
      (flag = false ∨
        (node.typ ≠ parent.typ ∧ isSub node.typ parent.typ = false)) →
      resolve ss matcher defaults isSub fuel (node :: parent :: rest) prop
        = defaults prop) := by
  refine ⟨?_, ?_, ?_⟩
  · intro hinl
    simp only [resolve, h, hinl, if_true]
  · intro hinl hflag htyp
    have hcond : (flag && (node.typ = parent.typ ||
        isSub node.typ parent.typ)) = true := by
      rcases htyp with ht | ht <;> simp [hflag, ht]
    simp only [resolve, h, hinl, Bool.false_eq_true, if_false, hcond,
      if_true]
  · intro hinl hcase
    have hcond : (flag && (node.typ = parent.typ ||
        isSub node.typ parent.typ)) = false := by
      rcases hcase with hf | ⟨ht1, ht2⟩
      · simp [hf]
      · simp [ht1, ht2]
    simp only [resolve, h, hinl, Bool.false_eq_true, if_false, hcond]

/-- Witness for C4: an inline node over an empty style sheet climbs to
its parent. -/
theorem resolve_parent_fallback_witness :
    lookupMatches [] 3 ((fun _ => []) (⟨5, true⟩ : StyledNode)) "font_size"
        = .absent false ∧
    ((⟨5, true⟩ : StyledNode).isInline = true →
      resolve [] (fun _ => []) (fun _ => 12) (fun _ _ => false) 3
          [⟨5, true⟩, ⟨7, false⟩] "font_size"
        = resolve [] (fun _ => []) (fun _ => 12) (fun _ _ => false) 3
            [⟨7, false⟩] "font_size") :=
  ⟨rfl,
   (resolve_parent_fallback [] (fun _ => []) (fun _ => 12) (fun _ _ => false)
      3 ⟨5, true⟩ ⟨7, false⟩ [] "font_size" false rfl).1⟩

/-- C5: `resolve` is total — it never fails — and when no matching
style definition, base chain, or parent fallback supplies a value for
the property anywhere along the ancestor chain, it returns the
type-level default constant for the property. -/
theorem resolve_returns_default (ss : StyleSheet)
    (matcher : StyledNode → List String) (defaults : String → Int)
    (isSub : Nat → Nat → Bool) (fuel : Nat) (chain : List StyledNode)
    (prop : String)
    (h : ∀ node ∈ chain, ∃ flag,
        lookupMatches ss fuel (matcher node) prop = .absent flag) :
    resolve ss matcher defaults isSub fuel chain prop = defaults prop := by
  induction chain with
  | nil => simp [resolve]
  | cons node ancestors ih =>
    obtain ⟨flag, hflag⟩ := h node (by simp)
    have htail := ih fun x hx => h x (by simp [hx])
    simp only [resolve, hflag]
    by_cases hinl : node.isInline = true
    · simp [hinl, htail]
    · simp only [hinl, if_false]
      cases ancestors with
      | nil => rfl
      | cons parent rest =>
        by_cases hcond : (flag && (decide (node.typ = parent.typ) ||
            isSub node.typ parent.typ)) = true
        · simpa [hcond] using htail
        · simp [hcond]

/-- Witness for C5: a chain of an inline node under a block node, over
a style sheet whose only label does not define the property. -/
theorem resolve_returns_default_witness :
    (∀ node ∈ ([⟨5, true⟩, ⟨7, false⟩] : List StyledNode), ∃ flag,
        lookupMatches [("emphasis", ⟨[("font_slant", 1)], .noBase⟩)] 3
          ((fun _ => ["emphasis"]) node) "font_size" = .absent flag) ∧
    resolve [("emphasis", ⟨[("font_slant", 1)], .noBase⟩)]
        (fun _ => ["emphasis"]) (fun _ => 12) (fun _ _ => false) 3
        [⟨5, true⟩, ⟨7, false⟩] "font_size" = 12 :=
  ⟨fun _ _ => ⟨false, rfl⟩,
   resolve_returns_default [("emphasis", ⟨[("font_slant", 1)], .noBase⟩)]
      (fun _ => ["emphasis"]) (fun _ => 12) (fun _ _ => false) 3
      [⟨5, true⟩, ⟨7, false⟩] "font_size" (fun _ _ => ⟨false, rfl⟩)⟩
